import Mathlib

/-!
# Verification of the azure-resource-manager-schemas generator core

Shallow embedding of the three generator command scripts:
* the resource-listing script (reference resolution, schema-loader checks,
  resource cataloging),
* the full-batch generation orchestrator (`generateall`),
* the single-surface generation command.

External collaborators (file system, repo cloning, the artifact generation
routine) are modelled as explicit function parameters; thrown JavaScript
exceptions are modelled with `Except`.
-/

namespace ArmSchemas

/-- A parsed JSON value.  `obj` keeps its fields in `Object.keys` order
(insertion order for the non-numeric keys appearing in these documents). -/
inductive Json where
  | null
  | bool (b : Bool)
  | num (n : Int)
  | str (s : String)
  | arr (elems : List Json)
  | obj (fields : List (String × Json))

/-!
## Reference Resolver (`findAllReferences`)

The source walks `Object.keys(input)`; for each key it recurses into array
values element by element, recurses into values of `typeof === 'object'`
(which in JavaScript includes `null`, where the recursive call's
`Object.keys(null)` throws a `TypeError`), and records the value of a
`"$ref"` key when that value is a string.  Scalar top-level inputs yield no
references: `Object.keys` of a string produces numeric index keys (never
`"$ref"`) and of a number or boolean produces no keys at all.
-/

mutual

/-- `findAllReferences(input)` from the resource-listing script.
`Except.error ()` models the `TypeError` thrown by `Object.keys(null)`. -/
def findAllReferences : Json → Except Unit (List String)
  | .null => .error ()
  | .bool _ => .ok []
  | .num _ => .ok []
  | .str _ => .ok []
  | .arr es => findRefsElems es
  | .obj fs => findRefsFields fs

/-- The inner `for (const value of input[key])` loop over an array value:
each element is passed straight to `findAllReferences` and the results are
concatenated in element order. -/
def findRefsElems : List Json → Except Unit (List String)
  | [] => .ok []
  | v :: rest => do
    let a ← findAllReferences v
    let b ← findRefsElems rest
    pure (a ++ b)

/-- One iteration of the `Object.keys` loop over an object's fields. -/
def findRefsFields : List (String × Json) → Except Unit (List String)
  | [] => .ok []
  | (k, v) :: rest => do
    let a ← findRefsField k v
    let b ← findRefsFields rest
    pure (a ++ b)

/-- Dispatch on one field value, in the source's branch order:
array, `typeof 'object'` (object or null), then the `"$ref"` string check. -/
def findRefsField (k : String) : Json → Except Unit (List String)
  | .arr vs => findRefsElems vs
  | .obj fs => findRefsFields fs
  | .null => .error ()
  | .str s => if k = "$ref" then .ok [s] else .ok []
  | .bool _ => .ok []
  | .num _ => .ok []

end

mutual

/-- `true` when a JSON value contains no `null` anywhere. -/
def nullFree : Json → Bool
  | .null => false
  | .bool _ => true
  | .num _ => true
  | .str _ => true
  | .arr es => nullFreeElems es
  | .obj fs => nullFreeFields fs

def nullFreeElems : List Json → Bool
  | [] => true
  | v :: rest => nullFree v && nullFreeElems rest

def nullFreeFields : List (String × Json) → Bool
  | [] => true
  | (_, v) :: rest => nullFree v && nullFreeFields rest

end

mutual

/-- Modelled from the spec: the reference markers of a JSON value — every
string value sitting directly under a `"$ref"` object key, however deeply
nested (including inside sequences), in field/element traversal order,
duplicates preserved. -/
def refMarkers : Json → List String
  | .null => []
  | .bool _ => []
  | .num _ => []
  | .str _ => []
  | .arr es => refMarkersElems es
  | .obj fs => refMarkersFields fs

def refMarkersElems : List Json → List String
  | [] => []
  | v :: rest => refMarkers v ++ refMarkersElems rest

def refMarkersFields : List (String × Json) → List String
  | [] => []
  | (k, v) :: rest => fieldMarkers k v ++ refMarkersFields rest

/-- The markers contributed by one object field: a string value is a marker
exactly under the `"$ref"` key; any other value contributes the markers of
its own substructure. -/
def fieldMarkers (k : String) : Json → List String
  | .str s => if k = "$ref" then [s] else []
  | .null => []
  | .bool _ => []
  | .num _ => []
  | .arr es => refMarkersElems es
  | .obj fs => refMarkersFields fs

end

/-!
## Schema Loader and Resource Cataloger (resource-listing script)
-/

/-- Modelled from the spec: the trusted document base (`constants.schemasBaseUri`
in the script; the constants module itself is an external collaborator).  All
four root document locations live directly under it. -/
def schemasBaseUri : String := "https://schema.management.azure.com/schemas"

/-- The four fixed well-known root document locations, in source order. -/
def rootSchemaPaths : List String :=
  [ "https://schema.management.azure.com/schemas/2019-04-01/deploymentTemplate.json"
  , "https://schema.management.azure.com/schemas/common/definitions.json"
  , "https://schema.management.azure.com/schemas/common/autogeneratedResources.json"
  , "https://schema.management.azure.com/schemas/common/manuallyAddedResources.json" ]

/-- `toLowerCase()`, character by character. -/
def strLower (s : String) : String := ⟨s.data.map Char.toLower⟩

/-- `a.startsWith(b)`. -/
def strStartsWith (s p : String) : Bool := p.data.isPrefixOf s.data

/-- Modelled from the spec: `lowerCaseCompare(a, b) === 0` (a `utils` helper,
an external collaborator) holds exactly when the two strings are equal after
lower-casing. -/
def lowerCaseEq (a b : String) : Bool := strLower a == strLower b

/-- `ref.split('#')[0]`: the document URI of a reference string — the prefix
before the first `#` (the whole string when no `#` occurs). -/
def documentUri (ref : String) : String := ⟨ref.data.takeWhile (· ≠ '#')⟩

/-- The candidate filter applied to each root document's references:
`schema.toLowerCase().startsWith(constants.schemasBaseUri.toLowerCase() + '/')`. -/
def refFilter (s : String) : Bool :=
  strStartsWith (strLower s) (strLower schemasBaseUri ++ "/")

/-- `[...new Set(l)]`: JavaScript `Set` semantics — exact string identity,
first occurrence kept, insertion order preserved. -/
def jsSetDedup (l : List String) : List String :=
  l.foldl (fun acc s => if s ∈ acc then acc else acc ++ [s]) []

/-- `findAllResourceReferences()`: collect the filtered references of every
root document in order, drop every reference whose document URI matches a
root document location case-insensitively, then deduplicate with a `Set`.
`read` models `readSchema` (file access is external). -/
def findAllResourceReferences (read : String → Json) : Except Unit (List String) := do
  let allRefs ← rootSchemaPaths.foldlM (fun acc root => do
      let refs ← findAllReferences (read root)
      pure (acc ++ refs.filter refFilter)) ([] : List String)
  let remaining := rootSchemaPaths.foldl
      (fun refs root => refs.filter fun r => !lowerCaseEq (documentUri r) root) allRefs
  pure (jsSetDedup remaining)

/-- Property lookup `value[key]` as it behaves for the (non-numeric) keys the
script uses: a field lookup on objects, `undefined` (`none`) on everything
else. -/
def jsGet : Json → String → Option Json
  | .obj fs, k => (fs.find? fun f => f.1 == k).map (·.2)
  | _, _ => none

/-- Chained lookup on a possibly-`undefined` intermediate value. -/
def jsGetOpt (o : Option Json) (k : String) : Option Json := o.bind (jsGet · k)

/-- JavaScript truthiness of a JSON value. -/
def truthy : Json → Bool
  | .null => false
  | .bool b => b
  | .num n => n != 0
  | .str s => s ≠ ""
  | .arr _ => true
  | .obj _ => true

/-- Truthiness of a lookup result; `undefined` is falsy. -/
def truthyOpt : Option Json → Bool
  | none => false
  | some j => truthy j

/-- Errors of `getResourceInfo`: the `Unable to find expected properties`
`Error` thrown by the explicit guard, and the `TypeError` raised when `.map`
is invoked on a non-array enumeration value. -/
inductive JsErr where
  | malformed
  | typeError
  deriving DecidableEq

/-- The guard-and-extract step of `getResourceInfo`, applied to the node
reached after fragment descent: throw unless
`schema['properties']`, `...['type']`, `...['type']['enum']`,
`...['apiVersion']` and `...['apiVersion']['enum']` are all truthy, then
return the two enumeration values. -/
def getResourceEnums (schema : Json) : Except JsErr (Json × Json) :=
  let props := jsGet schema "properties"
  let typeProp := jsGetOpt props "type"
  let typeEnum := jsGetOpt typeProp "enum"
  let apiProp := jsGetOpt props "apiVersion"
  let apiEnum := jsGetOpt apiProp "enum"
  if !truthyOpt props || !truthyOpt typeProp || !truthyOpt typeEnum
      || !truthyOpt apiProp || !truthyOpt apiEnum then
    .error .malformed
  else
    -- the guard guarantees both lookups produced a value
    .ok (typeEnum.getD .null, apiEnum.getD .null)

/-- `.map` on a value cast to `string[]`: succeeds with the elements when the
value is an array, otherwise raises a `TypeError`. -/
def asJsArray : Json → Except JsErr (List Json)
  | .arr es => .ok es
  | _ => .error .typeError

/-- The outer `resourceTypes.map(...)` loop: for each resource type, invoke
`.map` on the apiVersion enumeration value (throwing a `TypeError` there if
it is not an array) and build that type's row of descriptors.  A non-array
apiVersion value therefore only throws when some resource type exists. -/
def descriptorRows (vj : Json) : List Json → Except JsErr (List (List (Json × Json)))
  | [] => .ok []
  | t :: rest => do
    let versions ← asJsArray vj
    let more ← descriptorRows vj rest
    pure ((versions.map fun v => (t, v)) :: more)

/-- The tail of `getResourceInfo` on the descended node:
`resourceTypes.map(type => apiVersions.map(apiVersion => ({apiVersion, type})))
  .reduce((a, b) => a.concat(b), [])`.
Descriptors are `(type, apiVersion)` pairs. -/
def getResourceInfo (schema : Json) : Except JsErr (List (Json × Json)) := do
  let (tj, vj) ← getResourceEnums schema
  let types ← asJsArray tj
  let rows ← descriptorRows vj types
  pure (rows.foldl (· ++ ·) [])

/-!
## Resource catalog (the `series` callback of the resource-listing script)

`allResources` is a plain object whose keys appear in insertion order;
it is modelled as an association list.  New keys are only created when no
existing key matches case-insensitively, so keys stay pairwise distinct.
-/

abbrev Catalog := List (String × List String)

/-- `allResources[resourceKey].push(resource.apiVersion)` on the (unique)
entry whose key is exactly `key`. -/
def pushVersion : Catalog → String → String → Catalog
  | [], _, _ => []
  | kv :: rest, key, v =>
    if kv.1 = key then (kv.1, kv.2 ++ [v]) :: rest
    else kv :: pushVersion rest key v

/-- One iteration of the cataloging loop body for a descriptor
`(type, apiVersion)`: find the first existing key equal to the type up to
case; if none, append a fresh key with the descriptor's exact casing and an
empty version list; then push the apiVersion onto that key's list. -/
def insertResource (catalog : Catalog) (r : String × String) : Catalog :=
  match catalog.find? (fun kv => lowerCaseEq kv.1 r.1) with
  | some kv => pushVersion catalog kv.1 r.2
  | none => pushVersion (catalog ++ [(r.1, [])]) r.1 r.2

/-- The catalog accumulated over a sequence of resource descriptors. -/
def buildCatalog (descriptors : List (String × String)) : Catalog :=
  descriptors.foldl insertResource []

/-- `allResources[key]`: the version list stored under an exact key. -/
def catLookup (C : Catalog) (k : String) : Option (List String) :=
  (C.find? fun kv => kv.1 == k).map (·.2)

/-- The catalog invariant maintained by `insertResource`: canonical keys are
pairwise distinct even up to case. -/
def catalogKeysDistinct (C : Catalog) : Prop :=
  C.Pairwise fun a b => lowerCaseEq a.1 b.1 = false

/-!
## Batch Orchestrator (`generateall`)

The external collaborators (`validateAndReturnReadmePath`,
`getApiVersionsByNamespace`, `findOrGenerateAutogenEntries`,
`generateSchemas`, `getPackageString`) are supplied as a `GenEnv`; throwing
collaborators return `Except`.  Schema configurations are opaque to the
orchestrator and modelled as strings.  Log output is modelled as structured
blocks carrying the data interpolated into the markdown templates.
-/

/-- An autogenlist entry.  `nspace` is the entry's `namespace` field
(a Lean keyword, hence the shortened name). -/
structure AutoGenConfig where
  basePath : String
  nspace : String
  disabledForAutogen : Bool
  readmeFile : Option String
  deriving Repr, DecidableEq

/-- One record of the `packages` array written to the output report. -/
structure Package where
  path : List String
  packageName : String
  result : String
  deriving Repr, DecidableEq

/-- One block written through the summary logger. -/
inductive LogBlock where
  | entrySuccess (basePath : String)
  | entryFailure (basePath nspace error : String)
  | basePathFailure (basePath error : String)
  deriving Repr, DecidableEq

/-- The external collaborators consumed by the two generation commands. -/
structure GenEnv where
  validateAndReturnReadmePath : String → String → Except String String
  getApiVersionsByNamespace : String → List String
  findOrGenerateAutogenEntries : String → List String → List AutoGenConfig
  generateSchemas : String → AutoGenConfig → Except String (List String)
  getPackageString : String → String

/-- JavaScript `a || b` for the string-or-undefined `readmeFile` field:
`undefined` and the empty string fall back to `b`. -/
def jsOrElse (o : Option String) (b : String) : String :=
  match o with
  | some s => if s = "" then b else s
  | none => b

/-- Everything inside one inner-loop `try` block that can throw:
resolve the entry's readme (its `readmeFile` falling back to its
`basePath`), compute the package string, and run the generation routine. -/
def entryAttempt (env : GenEnv) (localPath : String) (cfg : AutoGenConfig) :
    Except String (String × List String) := do
  let readme ← env.validateAndReturnReadmePath localPath
      (jsOrElse cfg.readmeFile cfg.basePath)
  let name := env.getPackageString readme
  let newConfigs ← env.generateSchemas readme cfg
  pure (name, newConfigs)

/-- One inner-loop iteration: the package record, the schema configurations
to append, and the log block.  On success the log names the outer base path;
on failure the package is keyed by the entry's base path and the error is
logged with the entry's base path and namespace. -/
def processEntry (env : GenEnv) (localPath basePath : String)
    (cfg : AutoGenConfig) : Package × List String × LogBlock :=
  match entryAttempt env localPath cfg with
  | .ok (name, newConfigs) =>
    (⟨["schemas"], name, "succeeded"⟩, newConfigs, .entrySuccess basePath)
  | .error e =>
    (⟨["schemas"], cfg.basePath, "failed"⟩, [], .entryFailure cfg.basePath cfg.nspace e)

/-- The mutable accumulators of the `generateall` run
(`schemaConfigs`, `packages`, and the summary log sink). -/
structure BatchState where
  schemaConfigs : List String
  packages : List Package
  logs : List LogBlock
  deriving Repr, DecidableEq

/-- The inner `for (const autoGenConfig of filteredAutoGenList)` loop:
every entry appends exactly one package record, and its schema
configurations and log block, to the accumulators. -/
def processEntries (env : GenEnv) (localPath basePath : String)
    (st : BatchState) (entries : List AutoGenConfig) : BatchState :=
  entries.foldl (fun st cfg =>
    let (pkg, cfgs, lg) := processEntry env localPath basePath cfg
    { schemaConfigs := st.schemaConfigs ++ cfgs
      packages := st.packages ++ [pkg]
      logs := st.logs ++ [lg] }) st

/-- The `readme-files` allow-list step: keep an entry when some allow-listed
file starts with `specification/` followed by the entry's base path, and
override the entry's `readmeFile` with the matched file. -/
def applyReadmeFilter (readmeFiles : Option (List String))
    (entries : List AutoGenConfig) : List AutoGenConfig :=
  match readmeFiles with
  | none => entries
  | some files => entries.filterMap fun c =>
    match files.find? (fun f => strStartsWith f ("specification/" ++ c.basePath)) with
    | some r => some { c with readmeFile := some r }
    | none => none

/-- One outer-loop iteration over a base path.  If the readme resolution
throws, the `catch` only appends a failure log block; otherwise the
surviving (non-disabled, allow-listed) entries run through the inner loop.
`clearAutoGeneratedSchemaRefs` only touches external files and leaves the
accumulators untouched, so it does not appear in the state. -/
def processBasePath (env : GenEnv) (localPath : String)
    (readmeFiles : Option (List String)) (st : BatchState)
    (basePath : String) : BatchState :=
  match env.validateAndReturnReadmePath localPath basePath with
  | .error e => { st with logs := st.logs ++ [.basePathFailure basePath e] }
  | .ok readme =>
    let namespaces := env.getApiVersionsByNamespace readme
    let filtered := (env.findOrGenerateAutogenEntries basePath namespaces).filter
        (fun x => x.disabledForAutogen != true)
    processEntries env localPath basePath st (applyReadmeFilter readmeFiles filtered)

/-- The full-batch run over an ordered list of base paths. -/
def generateAll (env : GenEnv) (localPath : String)
    (readmeFiles : Option (List String)) (basePaths : List String) : BatchState :=
  basePaths.foldl (processBasePath env localPath readmeFiles) ⟨[], [], []⟩

/-!
## Single-surface generation command

Its entry loop skips entries whose `disabledForAutogen` flag is `true` and
calls `generateSchemas` on the rest with no `try` around the call: the first
failing entry rejects the whole invocation, so `saveAutoGeneratedSchemaRefs`
never runs.  `attempted` records the entries actually passed to the
generation routine, in call order.
-/

/-- Outcome of the single-surface entry loop. -/
structure SingleRun where
  attempted : List AutoGenConfig
  outcome : Except String (List String)

/-- The `for (const autoGenConfig of autoGenEntries)` loop of the
single-surface command, with `gen` the generation routine applied to the
already-resolved readme. -/
def runEntries (gen : AutoGenConfig → Except String (List String)) :
    List AutoGenConfig → SingleRun
  | [] => ⟨[], .ok []⟩
  | c :: rest =>
    if c.disabledForAutogen then runEntries gen rest
    else
      match gen c with
      | .error e => ⟨[c], .error e⟩
      | .ok cfgs =>
        let r := runEntries gen rest
        ⟨c :: r.attempted,
          match r.outcome with
          | .ok more => .ok (cfgs ++ more)
          | .error e => .error e⟩

/-- The configurations handed to `saveAutoGeneratedSchemaRefs`: only
produced when the loop finished without an exception. -/
def savedRefs (gen : AutoGenConfig → Except String (List String))
    (entries : List AutoGenConfig) : Option (List String) :=
  match (runEntries gen entries).outcome with
  | .ok cfgs => some cfgs
  | .error _ => none

/-!
## Concrete instances used to exercise the theorems
-/

/-- A small concrete collaborator environment: every base path except
`"missing"` resolves, and generation fails exactly on
`svcB/resource-manager`. -/
def demoEnv : GenEnv where
  validateAndReturnReadmePath := fun _ p =>
    if p = "missing" then .error "not found" else .ok p
  getApiVersionsByNamespace := fun _ => ["Microsoft.Demo"]
  findOrGenerateAutogenEntries := fun bp ns =>
    [{ basePath := bp, nspace := ns.headD "", disabledForAutogen := false,
       readmeFile := none }]
  generateSchemas := fun _ cfg =>
    if cfg.basePath = "svcB/resource-manager" then .error "boom"
    else .ok [cfg.basePath ++ "-cfg"]
  getPackageString := fun readme => readme ++ "-pkg"

/-- The generation routine of `demoEnv` with the readme already resolved. -/
def demoGen : AutoGenConfig → Except String (List String) :=
  fun cfg =>
    if cfg.basePath = "svcB/resource-manager" then .error "boom"
    else .ok [cfg.basePath ++ "-cfg"]

def entryA : AutoGenConfig := ⟨"svcA/resource-manager", "Microsoft.A", false, none⟩
def entryB : AutoGenConfig := ⟨"svcB/resource-manager", "Microsoft.B", false, none⟩
def entryC : AutoGenConfig := ⟨"svcC/resource-manager", "Microsoft.C", false, none⟩
def entryOff : AutoGenConfig := ⟨"svcOff/resource-manager", "Microsoft.Off", true, none⟩

/-- A reference target carrying both required enumerations. -/
def goodTarget : Json :=
  .obj [("properties", .obj
    [ ("type", .obj [("enum", .arr [.str "Contoso.Demo/widgets"])])
    , ("apiVersion", .obj [("enum", .arr [.str "2020-01-01"])]) ])]

/-- A reference target with a `type` enumeration but no `apiVersion`
property at all. -/
def badTarget : Json :=
  .obj [("properties", .obj
    [ ("type", .obj [("enum", .arr [.str "Contoso.Demo/widgets"])]) ])]

/-- A reference target with two types and two api versions. -/
def crossTarget : Json :=
  .obj [("properties", .obj
    [ ("type", .obj [("enum", .arr [.str "X", .str "Y"])])
    , ("apiVersion", .obj [("enum", .arr [.str "v1", .str "v2"])]) ])]

/-- A root document exercising filtering, self-reference exclusion, and
deduplication: one duplicated trusted reference, one self-reference to a
root location, one reference outside the trusted base. -/
def demoRefDoc : Json :=
  .obj [ ("id", .str "https://schema.management.azure.com/schemas/2019-04-01/deploymentTemplate.json")
       , ("resources", .arr
          [ .obj [("$ref", .str "https://schema.management.azure.com/schemas/2020-01-01/Microsoft.Demo.json#/resourceDefinitions/widgets")]
          , .obj [("$ref", .str "https://schema.management.azure.com/schemas/2019-04-01/DeploymentTemplate.json#/definitions/resourceBase")]
          , .obj [("$ref", .str "https://example.com/other.json#/x")]
          , .obj [("$ref", .str "https://schema.management.azure.com/schemas/2020-01-01/Microsoft.Demo.json#/resourceDefinitions/widgets")] ]) ]

/-- A document store serving `demoRefDoc` for the first root location and an
empty object for everything else. -/
def demoRead : String → Json := fun root =>
  if root = "https://schema.management.azure.com/schemas/2019-04-01/deploymentTemplate.json"
  then demoRefDoc else .obj []

/-!
## Helper lemmas
-/

theorem processEntries_packages (env : GenEnv) (localPath basePath : String)
    (entries : List AutoGenConfig) : ∀ st : BatchState,
    (processEntries env localPath basePath st entries).packages
      = st.packages ++ entries.map (fun cfg => (processEntry env localPath basePath cfg).1) := by
  induction entries with
  | nil => intro st; simp [processEntries]
  | cons cfg rest ih =>
    intro st
    rw [show processEntries env localPath basePath st (cfg :: rest)
          = processEntries env localPath basePath
              { schemaConfigs := st.schemaConfigs ++ (processEntry env localPath basePath cfg).2.1
                packages := st.packages ++ [(processEntry env localPath basePath cfg).1]
                logs := st.logs ++ [(processEntry env localPath basePath cfg).2.2] } rest by
          simp [processEntries]]
    rw [ih]
    simp

/-!
## C1 — full-batch inner entry loop
-/

/-- C1: in full-batch mode the inner loop appends exactly one package record
per surviving entry, in processing order; a throwing entry yields a record
with result `"failed"` keyed by the entry's base path, a successful entry a
record with result `"succeeded"` keyed by its resolved package string, and a
failure never prevents later sibling entries from contributing their own
records. -/
theorem generateAll_inner_loop_isolation (env : GenEnv) (localPath basePath : String)
    (st : BatchState) (entries : List AutoGenConfig) :
    (processEntries env localPath basePath st entries).packages
      = st.packages ++ entries.map (fun cfg => (processEntry env localPath basePath cfg).1)
    ∧ (∀ cfg name newConfigs,
        entryAttempt env localPath cfg = .ok (name, newConfigs) →
        (processEntry env localPath basePath cfg).1 = ⟨["schemas"], name, "succeeded"⟩)
    ∧ (∀ cfg e, entryAttempt env localPath cfg = .error e →
        (processEntry env localPath basePath cfg).1
          = ⟨["schemas"], cfg.basePath, "failed"⟩) := by
  refine ⟨processEntries_packages env localPath basePath entries st, ?_, ?_⟩
  · intro cfg name newConfigs h; simp [processEntry, h]
  · intro cfg e h; simp [processEntry, h]

/-- Witness for C1: three entries where the second one's generation throws
produce three package records in order — succeeded, failed, succeeded. -/
theorem generateAll_inner_loop_isolation_witness :
    (processEntries demoEnv "specs" "svc" ⟨[], [], []⟩ [entryA, entryB, entryC]).packages
      = [ ⟨["schemas"], "svcA/resource-manager-pkg", "succeeded"⟩
        , ⟨["schemas"], "svcB/resource-manager", "failed"⟩
        , ⟨["schemas"], "svcC/resource-manager-pkg", "succeeded"⟩ ]
    ∧ (processEntry demoEnv "specs" "svc" entryB).1
        = ⟨["schemas"], "svcB/resource-manager", "failed"⟩ := by
  constructor
  · rw [(generateAll_inner_loop_isolation demoEnv "specs" "svc" ⟨[], [], []⟩
        [entryA, entryB, entryC]).1]
    rfl
  · exact (generateAll_inner_loop_isolation demoEnv "specs" "svc" ⟨[], [], []⟩
        [entryA, entryB, entryC]).2.2 entryB "boom" rfl

/-!
## C3 — full-batch outer base-path loop
-/

/-- C3: when a base path's entry-point document fails to resolve, the run
records exactly one failure log block for it, emits no package record for
it, and the remaining base paths are processed from the same state. -/
theorem generateAll_basePath_isolation (env : GenEnv) (localPath : String)
    (readmeFiles : Option (List String)) (st : BatchState) (basePath : String)
    (rest : List String) (e : String)
    (h : env.validateAndReturnReadmePath localPath basePath = .error e) :
    processBasePath env localPath readmeFiles st basePath
      = { st with logs := st.logs ++ [.basePathFailure basePath e] }
    ∧ (processBasePath env localPath readmeFiles st basePath).packages = st.packages
    ∧ (basePath :: rest).foldl (processBasePath env localPath readmeFiles) st
      = rest.foldl (processBasePath env localPath readmeFiles)
          { st with logs := st.logs ++ [.basePathFailure basePath e] } := by
  have h1 : processBasePath env localPath readmeFiles st basePath
      = { st with logs := st.logs ++ [.basePathFailure basePath e] } := by
    simp [processBasePath, h]
  exact ⟨h1, by rw [h1], by rw [List.foldl_cons, h1]⟩

/-- Witness for C3: a run over an unresolvable base path followed by a good
one yields only the good one's package and both log blocks in order. -/
theorem generateAll_basePath_isolation_witness :
    generateAll demoEnv "specs" none ["missing", "svcA/resource-manager"]
      = ⟨ ["svcA/resource-manager-cfg"]
        , [⟨["schemas"], "svcA/resource-manager-pkg", "succeeded"⟩]
        , [.basePathFailure "missing" "not found",
           .entrySuccess "svcA/resource-manager"] ⟩ := by
  have h := generateAll_basePath_isolation demoEnv "specs" none ⟨[], [], []⟩
      "missing" ["svcA/resource-manager"] "not found" rfl
  unfold generateAll
  rw [h.2.2]
  rfl

/-!
## C4 — case-insensitive catalog merge
-/

/-- C4: inserting `"Foo/Bar"` with `v1` and then `"foo/bar"` with a distinct
`v2` yields exactly one catalog key, with the first insertion's casing,
holding both versions. -/
theorem catalog_case_insensitive_merge (v1 v2 : String) (h : v1 ≠ v2) :
    buildCatalog [("Foo/Bar", v1), ("foo/bar", v2)] = [("Foo/Bar", [v1, v2])]
    ∧ v1 ∈ ([v1, v2] : List String) ∧ v2 ∈ ([v1, v2] : List String)
    ∧ ([v1, v2] : List String).Nodup := by
  refine ⟨rfl, by simp, by simp, by simp [h]⟩

/-- Witness for C4 at two concrete api versions. -/
theorem catalog_case_insensitive_merge_witness :
    buildCatalog [("Foo/Bar", "2019-06-01"), ("foo/bar", "2021-04-01")]
        = [("Foo/Bar", ["2019-06-01", "2021-04-01"])]
    ∧ "2019-06-01" ∈ (["2019-06-01", "2021-04-01"] : List String)
    ∧ "2021-04-01" ∈ (["2019-06-01", "2021-04-01"] : List String)
    ∧ (["2019-06-01", "2021-04-01"] : List String).Nodup :=
  catalog_case_insensitive_merge "2019-06-01" "2021-04-01" (by decide)

/-!
## C8 — cross product of the two enumerations
-/

theorem descriptorRows_arr (vs : List Json) : ∀ ts : List Json,
    descriptorRows (.arr vs) ts = .ok (ts.map fun t => vs.map fun v => (t, v)) := by
  intro ts
  induction ts with
  | nil => rfl
  | cons t rest ih =>
    show (do
      let versions ← asJsArray (.arr vs)
      let more ← descriptorRows (.arr vs) rest
      pure ((versions.map fun v => (t, v)) :: more)) = _
    rw [ih]
    rfl

theorem foldl_append_eq_join {α : Type} : ∀ (l : List (List α)) (acc : List α),
    l.foldl (· ++ ·) acc = acc ++ l.flatten := by
  intro l
  induction l with
  | nil => intro acc; simp
  | cons x rest ih => intro acc; simp [ih, List.append_assoc]

/-- C8: whenever the guard-and-extract step yields enumerations `ts` and
`vs`, the produced descriptor list is exactly every `(type, apiVersion)`
pair of the two enumerations, type-major. -/
theorem getResourceInfo_cross_product (schema : Json) (ts vs : List Json)
    (h : getResourceEnums schema = .ok (.arr ts, .arr vs)) :
    getResourceInfo schema = .ok (ts.flatMap fun t => vs.map fun v => (t, v)) := by
  have h2 : getResourceInfo schema = (do
      let rows ← descriptorRows (.arr vs) ts
      pure (rows.foldl (· ++ ·) ([] : List (Json × Json)))) := by
    unfold getResourceInfo
    rw [h]
    rfl
  rw [h2, descriptorRows_arr]
  show Except.ok ((ts.map fun t => vs.map fun v => (t, v)).foldl (· ++ ·) []) = _
  rw [foldl_append_eq_join]
  rfl

/-- Witness for C8: types `[X, Y]` and versions `[v1, v2]` give exactly
`[(X,v1), (X,v2), (Y,v1), (Y,v2)]`. -/
theorem getResourceInfo_cross_product_witness :
    getResourceInfo crossTarget
      = .ok [ (.str "X", .str "v1"), (.str "X", .str "v2")
            , (.str "Y", .str "v1"), (.str "Y", .str "v2") ] := by
  have h := getResourceInfo_cross_product crossTarget
      [.str "X", .str "Y"] [.str "v1", .str "v2"] rfl
  rw [h]
  rfl

/-!
## C9 — single-surface mode: no inner isolation
-/

theorem runEntries_attempted_not_disabled
    (gen : AutoGenConfig → Except String (List String)) :
    ∀ entries : List AutoGenConfig,
    ∀ x ∈ (runEntries gen entries).attempted, x.disabledForAutogen = false := by
  intro entries
  induction entries with
  | nil => intro x hx; simp [runEntries] at hx
  | cons c rest ih =>
    intro x hx
    by_cases hc : c.disabledForAutogen
    · rw [runEntries] at hx
      simp only [hc, if_true] at hx
      exact ih x hx
    · rw [runEntries] at hx
      simp only [hc, if_false, Bool.false_eq_true] at hx
      cases hg : gen c with
      | error e =>
        rw [hg] at hx
        simp at hx
        simp [hx, hc]
      | ok l =>
        rw [hg] at hx
        simp at hx
        rcases hx with rfl | hx
        · simpa using hc
        · exact ih x hx

theorem runEntries_error_after_ok_prefix
    (gen : AutoGenConfig → Except String (List String))
    (c : AutoGenConfig) (post : List AutoGenConfig) (e : String)
    (hc : c.disabledForAutogen = false) (he : gen c = .error e) :
    ∀ pre : List AutoGenConfig,
    (∀ x ∈ pre, x.disabledForAutogen = true ∨ ∃ l, gen x = .ok l) →
    runEntries gen (pre ++ c :: post)
      = ⟨pre.filter (fun x => !x.disabledForAutogen) ++ [c], .error e⟩ := by
  intro pre
  induction pre with
  | nil =>
    intro _
    simp only [List.nil_append, List.filter_nil]
    rw [runEntries]
    simp [hc, he]
  | cons p rest ih =>
    intro hpre
    have hp := hpre p (by simp)
    have hrest : ∀ x ∈ rest, x.disabledForAutogen = true ∨ ∃ l, gen x = .ok l :=
      fun x hx => hpre x (by simp [hx])
    by_cases hdis : p.disabledForAutogen
    · rw [List.cons_append, runEntries]
      simp only [hdis, if_true]
      rw [ih hrest]
      simp [hdis]
    · rcases hp with hp | ⟨l, hl⟩
      · exact absurd hp hdis
      · rw [List.cons_append, runEntries]
        simp only [hdis, if_false, Bool.false_eq_true]
        rw [hl, ih hrest]
        simp [hdis]

/-- C9: in single-surface mode a generation failure on a non-disabled entry
is not caught — the loop's outcome is that error, only the earlier
non-disabled entries plus the failing one were ever passed to the generation
routine (later siblings are not attempted), the reference list is not
persisted, and disabled entries are never passed to the routine at all. -/
theorem singleSurface_failure_propagates
    (gen : AutoGenConfig → Except String (List String))
    (pre : List AutoGenConfig) (c : AutoGenConfig) (post : List AutoGenConfig)
    (e : String)
    (hpre : ∀ x ∈ pre, x.disabledForAutogen = true ∨ ∃ l, gen x = .ok l)
    (hc : c.disabledForAutogen = false) (he : gen c = .error e) :
    (runEntries gen (pre ++ c :: post)).outcome = .error e
    ∧ (runEntries gen (pre ++ c :: post)).attempted
        = pre.filter (fun x => !x.disabledForAutogen) ++ [c]
    ∧ savedRefs gen (pre ++ c :: post) = none
    ∧ ∀ entries : List AutoGenConfig,
        ∀ x ∈ (runEntries gen entries).attempted, x.disabledForAutogen = false := by
  have h := runEntries_error_after_ok_prefix gen c post e hc he pre hpre
  refine ⟨by rw [h], by rw [h], ?_, runEntries_attempted_not_disabled gen⟩
  rw [savedRefs, h]

/-- Witness for C9: with a disabled entry in the prefix and a surviving
entry after the failing one, the run aborts with the error, only the good
and failing entries were attempted, and nothing is persisted. -/
theorem singleSurface_failure_propagates_witness :
    (runEntries demoGen [entryA, entryOff, entryB, entryC]).outcome = .error "boom"
    ∧ (runEntries demoGen [entryA, entryOff, entryB, entryC]).attempted
        = [entryA, entryB]
    ∧ savedRefs demoGen [entryA, entryOff, entryB, entryC] = none := by
  have h := singleSurface_failure_propagates demoGen [entryA, entryOff] entryB
      [entryC] "boom"
      (by
        intro x hx
        simp only [List.mem_cons, List.not_mem_nil, or_false] at hx
        rcases hx with rfl | rfl
        · exact Or.inr ⟨["svcA/resource-manager-cfg"], rfl⟩
        · exact Or.inl rfl)
      rfl rfl
  exact ⟨h.1, h.2.1.trans rfl, h.2.2.1⟩

/-!
## C2 — the Reference Resolver returns every marker

The mutual lemmas below show that on null-free input the resolver succeeds
and returns exactly the spec-side marker list; the counterexample shows the
resolver throwing on an input containing `null`, so the claim needs the
null-free restriction.
-/

mutual

theorem findAllReferences_ok : ∀ j, nullFree j = true →
    findAllReferences j = .ok (refMarkers j)
  | .null, h => by simp [nullFree] at h
  | .bool _, _ => rfl
  | .num _, _ => rfl
  | .str _, _ => rfl
  | .arr es, h => by
    rw [show findAllReferences (.arr es) = findRefsElems es from rfl,
        show refMarkers (.arr es) = refMarkersElems es from rfl]
    exact findRefsElems_ok es (by simpa [nullFree] using h)
  | .obj fs, h => by
    rw [show findAllReferences (.obj fs) = findRefsFields fs from rfl,
        show refMarkers (.obj fs) = refMarkersFields fs from rfl]
    exact findRefsFields_ok fs (by simpa [nullFree] using h)

theorem findRefsElems_ok : ∀ es, nullFreeElems es = true →
    findRefsElems es = .ok (refMarkersElems es)
  | [], _ => rfl
  | v :: rest, h => by
    have h1 : nullFree v = true := by
      simp [nullFreeElems] at h; exact h.1
    have h2 : nullFreeElems rest = true := by
      simp [nullFreeElems] at h; exact h.2
    rw [show findRefsElems (v :: rest)
          = (do
              let a ← findAllReferences v
              let b ← findRefsElems rest
              pure (a ++ b)) from rfl,
        findAllReferences_ok v h1, findRefsElems_ok rest h2]
    rfl

theorem findRefsFields_ok : ∀ fs, nullFreeFields fs = true →
    findRefsFields fs = .ok (refMarkersFields fs)
  | [], _ => rfl
  | (k, v) :: rest, h => by
    have h1 : nullFree v = true := by
      simp [nullFreeFields] at h; exact h.1
    have h2 : nullFreeFields rest = true := by
      simp [nullFreeFields] at h; exact h.2
    rw [show findRefsFields ((k, v) :: rest)
          = (do
              let a ← findRefsField k v
              let b ← findRefsFields rest
              pure (a ++ b)) from rfl,
        findRefsField_ok k v h1, findRefsFields_ok rest h2]
    rfl

theorem findRefsField_ok : ∀ k v, nullFree v = true →
    findRefsField k v = .ok (fieldMarkers k v)
  | _, .null, h => by simp [nullFree] at h
  | _, .bool _, _ => rfl
  | _, .num _, _ => rfl
  | k, .str s, _ => by
    by_cases hk : k = "$ref"
    · simp [findRefsField, fieldMarkers, hk]
    · simp [findRefsField, fieldMarkers, hk]
  | k, .arr vs, h => by
    rw [show findRefsField k (.arr vs) = findRefsElems vs from rfl,
        show fieldMarkers k (.arr vs) = refMarkersElems vs from rfl]
    exact findRefsElems_ok vs (by simpa [nullFree] using h)
  | k, .obj fs, h => by
    rw [show findRefsField k (.obj fs) = findRefsFields fs from rfl,
        show fieldMarkers k (.obj fs) = refMarkersFields fs from rfl]
    exact findRefsFields_ok fs (by simpa [nullFree] using h)

end

/-- C2 counterexample: on an object with a `null` field value the resolver
throws (the `typeof === 'object'` branch recurses into `null`, where
`Object.keys` raises a `TypeError`) instead of returning the marker list,
refuting the claim for arbitrary JSON-shaped values. -/
theorem findAllReferences_null_counterexample :
    findAllReferences (Json.obj [("a", Json.null)]) = .error ()
    ∧ findAllReferences (Json.obj [("a", Json.null)])
        ≠ .ok (refMarkers (Json.obj [("a", Json.null)])) :=
  ⟨rfl, fun h => Except.noConfusion
    ((rfl : findAllReferences (Json.obj [("a", Json.null)])
        = Except.error ()).symm.trans h)⟩

/-- C2 as amended: for every null-free JSON-shaped value the Reference
Resolver returns every reference marker — each string value under a `"$ref"`
key, at arbitrary depth and inside sequences — in field/element traversal
order, duplicates preserved. -/
theorem findAllReferences_returns_all_markers (j : Json)
    (h : nullFree j = true) : findAllReferences j = .ok (refMarkers j) :=
  findAllReferences_ok j h

/-- Witness for C2 on a document with nested, duplicated markers inside a
sequence: all four markers come back in traversal order, duplicate intact. -/
theorem findAllReferences_returns_all_markers_witness :
    findAllReferences demoRefDoc
      = .ok [ "https://schema.management.azure.com/schemas/2020-01-01/Microsoft.Demo.json#/resourceDefinitions/widgets"
            , "https://schema.management.azure.com/schemas/2019-04-01/DeploymentTemplate.json#/definitions/resourceBase"
            , "https://example.com/other.json#/x"
            , "https://schema.management.azure.com/schemas/2020-01-01/Microsoft.Demo.json#/resourceDefinitions/widgets" ] := by
  rw [findAllReferences_returns_all_markers demoRefDoc rfl]
  rfl

/-!
## C7 — the malformed-schema guard

The guard throws when ANY of the five chained lookups is missing or falsy,
not only when the target lacks all of them: `badTarget` carries a perfectly
good `type` enumeration yet still trips the guard because `apiVersion` is
absent.
-/

/-- C7 counterexample: a target that does **not** lack all four required
pieces (its `type` enumeration is present and truthy) still fails with the
malformed-schema error, because its `apiVersion` side is missing — refuting
the claimed "fails iff lacks all four" equivalence. -/
theorem getResourceEnums_partial_counterexample :
    getResourceEnums badTarget = .error .malformed
    ∧ truthyOpt (jsGetOpt (jsGetOpt (jsGet badTarget "properties") "type") "enum")
        = true :=
  ⟨rfl, rfl⟩

/-- C7 as amended: the guard-and-extract step fails (necessarily with the
malformed-schema error) iff at least one of the five chained lookups —
`properties`, `properties.type`, `properties.type.enum`,
`properties.apiVersion`, `properties.apiVersion.enum` — is missing or falsy;
when all five are present and truthy it returns exactly the two enumeration
values. -/
theorem getResourceEnums_error_characterization (schema : Json) :
    (getResourceEnums schema = .error .malformed
      ↔ ¬(truthyOpt (jsGet schema "properties") = true
          ∧ truthyOpt (jsGetOpt (jsGet schema "properties") "type") = true
          ∧ truthyOpt (jsGetOpt (jsGetOpt (jsGet schema "properties") "type") "enum") = true
          ∧ truthyOpt (jsGetOpt (jsGet schema "properties") "apiVersion") = true
          ∧ truthyOpt (jsGetOpt (jsGetOpt (jsGet schema "properties") "apiVersion") "enum") = true))
    ∧ ∀ te ae, getResourceEnums schema = .ok (te, ae) →
        jsGetOpt (jsGetOpt (jsGet schema "properties") "type") "enum" = some te
        ∧ jsGetOpt (jsGetOpt (jsGet schema "properties") "apiVersion") "enum" = some ae := by
  have hdef : getResourceEnums schema
      = if !truthyOpt (jsGet schema "properties")
          || !truthyOpt (jsGetOpt (jsGet schema "properties") "type")
          || !truthyOpt (jsGetOpt (jsGetOpt (jsGet schema "properties") "type") "enum")
          || !truthyOpt (jsGetOpt (jsGet schema "properties") "apiVersion")
          || !truthyOpt (jsGetOpt (jsGetOpt (jsGet schema "properties") "apiVersion") "enum")
        then .error .malformed
        else .ok ((jsGetOpt (jsGetOpt (jsGet schema "properties") "type") "enum").getD .null,
                  (jsGetOpt (jsGetOpt (jsGet schema "properties") "apiVersion") "enum").getD .null) := rfl
  by_cases hc : (!truthyOpt (jsGet schema "properties")
      || !truthyOpt (jsGetOpt (jsGet schema "properties") "type")
      || !truthyOpt (jsGetOpt (jsGetOpt (jsGet schema "properties") "type") "enum")
      || !truthyOpt (jsGetOpt (jsGet schema "properties") "apiVersion")
      || !truthyOpt (jsGetOpt (jsGetOpt (jsGet schema "properties") "apiVersion") "enum")) = true
  · rw [hdef, if_pos hc]
    have hlack : ¬(truthyOpt (jsGet schema "properties") = true
        ∧ truthyOpt (jsGetOpt (jsGet schema "properties") "type") = true
        ∧ truthyOpt (jsGetOpt (jsGetOpt (jsGet schema "properties") "type") "enum") = true
        ∧ truthyOpt (jsGetOpt (jsGet schema "properties") "apiVersion") = true
        ∧ truthyOpt (jsGetOpt (jsGetOpt (jsGet schema "properties") "apiVersion") "enum") = true) := by
      intro hall
      obtain ⟨h1, h2, h3, h4, h5⟩ := hall
      simp [h1, h2, h3, h4, h5] at hc
    exact ⟨iff_of_true rfl hlack, fun te ae hok => by exact absurd hok (by simp)⟩
  · have hall : truthyOpt (jsGet schema "properties") = true
        ∧ truthyOpt (jsGetOpt (jsGet schema "properties") "type") = true
        ∧ truthyOpt (jsGetOpt (jsGetOpt (jsGet schema "properties") "type") "enum") = true
        ∧ truthyOpt (jsGetOpt (jsGet schema "properties") "apiVersion") = true
        ∧ truthyOpt (jsGetOpt (jsGetOpt (jsGet schema "properties") "apiVersion") "enum") = true := by
      have h := by simpa using hc
      tauto
    rw [hdef, if_neg hc]
    refine ⟨iff_of_false (by simp) (by simp [hall]), ?_⟩
    intro te ae hok
    rcases hte : jsGetOpt (jsGetOpt (jsGet schema "properties") "type") "enum" with _ | x
    · rw [hte] at hall; simp [truthyOpt] at hall
    · rcases hae : jsGetOpt (jsGetOpt (jsGet schema "properties") "apiVersion") "enum" with _ | y
      · rw [hae] at hall; simp [truthyOpt] at hall
      · rw [hte, hae] at hok
        simp only [Option.getD_some] at hok
        obtain ⟨rfl, rfl⟩ : x = te ∧ y = ae := by
          have := Except.ok.inj hok
          exact ⟨congrArg Prod.fst this, congrArg Prod.snd this⟩
        exact ⟨rfl, rfl⟩

/-- Witness for C7: on a target with both enumerations present, applying the
amended characterization recovers the two enumeration values. -/
theorem getResourceEnums_error_characterization_witness :
    jsGetOpt (jsGetOpt (jsGet goodTarget "properties") "type") "enum"
        = some (.arr [.str "Contoso.Demo/widgets"])
    ∧ jsGetOpt (jsGetOpt (jsGet goodTarget "properties") "apiVersion") "enum"
        = some (.arr [.str "2020-01-01"]) :=
  (getResourceEnums_error_characterization goodTarget).2
    (.arr [.str "Contoso.Demo/widgets"]) (.arr [.str "2020-01-01"]) rfl

/-!
## C5 — the candidate reference set
-/

theorem jsSetDedup_foldl_nodup : ∀ (l acc : List String), acc.Nodup →
    (l.foldl (fun acc s => if s ∈ acc then acc else acc ++ [s]) acc).Nodup := by
  intro l
  induction l with
  | nil => intro acc h; simpa using h
  | cons x rest ih =>
    intro acc h
    rw [List.foldl_cons]
    by_cases hx : x ∈ acc
    · rw [if_pos hx]; exact ih acc h
    · rw [if_neg hx]
      refine ih _ ?_
      simp [List.nodup_append, h, hx]

theorem jsSetDedup_foldl_mem : ∀ (l acc : List String) (s : String),
    s ∈ l.foldl (fun acc s => if s ∈ acc then acc else acc ++ [s]) acc
      ↔ s ∈ acc ∨ s ∈ l := by
  intro l
  induction l with
  | nil => intro acc s; simp
  | cons x rest ih =>
    intro acc s
    rw [List.foldl_cons]
    by_cases hx : x ∈ acc
    · rw [if_pos hx, ih]
      constructor
      · rintro (h | h)
        · exact Or.inl h
        · exact Or.inr (by simp [h])
      · rintro (h | h)
        · exact Or.inl h
        · rcases List.mem_cons.mp h with rfl | h
          · exact Or.inl hx
          · exact Or.inr h
    · rw [if_neg hx, ih]
      simp only [List.mem_append, List.mem_cons, List.not_mem_nil, or_false]
      tauto

theorem jsSetDedup_nodup (l : List String) : (jsSetDedup l).Nodup :=
  jsSetDedup_foldl_nodup l [] List.nodup_nil

theorem jsSetDedup_mem (l : List String) (s : String) :
    s ∈ jsSetDedup l ↔ s ∈ l := by
  rw [jsSetDedup, jsSetDedup_foldl_mem]
  simp

theorem filter_roots_mem : ∀ (roots refs : List String) (s : String),
    s ∈ roots.foldl
        (fun refs root => refs.filter fun r => !lowerCaseEq (documentUri r) root) refs
      ↔ s ∈ refs ∧ ∀ root ∈ roots, lowerCaseEq (documentUri s) root = false := by
  intro roots
  induction roots with
  | nil => intro refs s; simp
  | cons r rest ih =>
    intro refs s
    rw [List.foldl_cons, ih]
    simp only [List.mem_filter, List.mem_cons, Bool.not_eq_eq_eq_not, Bool.not_true]
    constructor
    · rintro ⟨⟨hmem, hr⟩, hrest⟩
      refine ⟨hmem, ?_⟩
      rintro root (rfl | hroot)
      · simpa using hr
      · exact hrest root hroot
    · rintro ⟨hmem, hall⟩
      exact ⟨⟨hmem, by simpa using hall r (Or.inl rfl)⟩,
             fun root hroot => hall root (Or.inr hroot)⟩

theorem collect_refs_ok (read : String → Json) :
    ∀ roots : List String, (∀ root ∈ roots, nullFree (read root) = true) →
    ∀ acc : List String,
    roots.foldlM (fun acc root => do
        let refs ← findAllReferences (read root)
        pure (acc ++ refs.filter refFilter)) acc
      = Except.ok (acc ++ (roots.map fun r => (refMarkers (read r)).filter refFilter).flatten) := by
  intro roots
  induction roots with
  | nil =>
    intro _ acc
    simp
    rfl
  | cons r rest ih =>
    intro h acc
    have hr : nullFree (read r) = true := h r (by simp)
    have hrest : ∀ root ∈ rest, nullFree (read root) = true :=
      fun root hroot => h root (by simp [hroot])
    rw [List.foldlM_cons, findAllReferences_ok (read r) hr]
    show rest.foldlM _ (acc ++ (refMarkers (read r)).filter refFilter) = _
    rw [ih hrest]
    simp

theorem mem_flatten_filter (l : List String) (g : String → List String)
    (p : String → Bool) (s : String) :
    (s ∈ (l.map fun r => (g r).filter p).flatten)
      ↔ s ∈ (l.map g).flatten ∧ p s = true := by
  simp only [List.mem_flatten, List.mem_map]
  constructor
  · rintro ⟨t, ⟨r, hr, rfl⟩, hst⟩
    rcases List.mem_filter.mp hst with ⟨hsg, hps⟩
    exact ⟨⟨g r, ⟨r, hr, rfl⟩, hsg⟩, hps⟩
  · rintro ⟨⟨t, ⟨r, hr, rfl⟩, hst⟩, hps⟩
    exact ⟨(g r).filter p, ⟨r, hr, rfl⟩, List.mem_filter.mpr ⟨hst, hps⟩⟩

theorem isPrefixOf_lower_takeWhile : ∀ (P : List Char), '#' ∉ P → ∀ l : List Char,
    P.isPrefixOf (l.map Char.toLower)
      = P.isPrefixOf ((l.takeWhile (· ≠ '#')).map Char.toLower) := by
  have hnil : ∀ x : List Char, ([] : List Char).isPrefixOf x = true := by
    intro x; cases x <;> rfl
  intro P
  induction P with
  | nil => intro _ l; rw [hnil, hnil]
  | cons p P' ih =>
    intro hP l
    have hp : p ≠ '#' := fun h => hP (by simp [h])
    have hP' : '#' ∉ P' := fun h => hP (by simp [h])
    cases l with
    | nil => rfl
    | cons c l' =>
      by_cases hc : c = '#'
      · subst hc
        rw [show ((('#' :: l').takeWhile (· ≠ '#')).map Char.toLower) = [] from rfl]
        show (p == Char.toLower '#' && _) = _
        rw [show Char.toLower '#' = '#' from rfl]
        simp [hp]
      · rw [show (c :: l').takeWhile (· ≠ '#') = c :: l'.takeWhile (· ≠ '#') by
            simp [List.takeWhile_cons, hc]]
        show (p == c.toLower && P'.isPrefixOf (l'.map Char.toLower))
          = (p == c.toLower && P'.isPrefixOf ((l'.takeWhile (· ≠ '#')).map Char.toLower))
        rw [ih hP' l']

/-- The candidate filter checks the whole reference string, but since the
trusted base contains no `#`, that is the same as checking the reference's
document URI. -/
theorem refFilter_eq_documentUri (s : String) :
    refFilter s
      = strStartsWith (strLower (documentUri s)) (strLower schemasBaseUri ++ "/") := by
  show (strLower schemasBaseUri ++ "/").data.isPrefixOf (s.data.map Char.toLower)
    = (strLower schemasBaseUri ++ "/").data.isPrefixOf
        ((s.data.takeWhile (· ≠ '#')).map Char.toLower)
  exact isPrefixOf_lower_takeWhile _ (by decide) s.data

/-- C5: when every root document loads null-free, the candidate reference
set is exactly: the references collected from all root documents in order,
restricted to those whose document URI falls case-insensitively under the
trusted base, with duplicates removed by exact string identity only
(`Nodup` + membership, i.e. set semantics), and excluding every reference
whose document URI case-insensitively matches a root document location. -/
theorem candidate_reference_set_spec (read : String → Json)
    (h : ∀ root ∈ rootSchemaPaths, nullFree (read root) = true) :
    ∃ L, findAllResourceReferences read = .ok L ∧ L.Nodup
    ∧ ∀ s, s ∈ L ↔
        (s ∈ (rootSchemaPaths.map fun r => refMarkers (read r)).flatten
         ∧ strStartsWith (strLower (documentUri s)) (strLower schemasBaseUri ++ "/") = true
         ∧ ∀ root ∈ rootSchemaPaths, lowerCaseEq (documentUri s) root = false) := by
  have hcol := collect_refs_ok read rootSchemaPaths h []
  have hrun : findAllResourceReferences read
      = .ok (jsSetDedup (rootSchemaPaths.foldl
          (fun refs root => refs.filter fun r => !lowerCaseEq (documentUri r) root)
          ((rootSchemaPaths.map fun r => (refMarkers (read r)).filter refFilter).flatten))) := by
    unfold findAllResourceReferences
    rw [hcol]
    rfl
  refine ⟨_, hrun, jsSetDedup_nodup _, ?_⟩
  intro s
  rw [jsSetDedup_mem, filter_roots_mem, mem_flatten_filter, refFilter_eq_documentUri]
  tauto

/-- Witness for C5: a concrete store whose first root document holds a
duplicated trusted reference, a self-reference to a root location in
different casing, and an untrusted reference; the run keeps exactly the one
trusted non-root reference. -/
theorem candidate_reference_set_spec_witness :
    (∃ L, findAllResourceReferences demoRead = .ok L ∧ L.Nodup
     ∧ ∀ s, s ∈ L ↔
        (s ∈ (rootSchemaPaths.map fun r => refMarkers (demoRead r)).flatten
         ∧ strStartsWith (strLower (documentUri s)) (strLower schemasBaseUri ++ "/") = true
         ∧ ∀ root ∈ rootSchemaPaths, lowerCaseEq (documentUri s) root = false))
    ∧ findAllResourceReferences demoRead
        = .ok ["https://schema.management.azure.com/schemas/2020-01-01/Microsoft.Demo.json#/resourceDefinitions/widgets"] :=
  ⟨candidate_reference_set_spec demoRead (by decide), rfl⟩

/-!
## C6 — version collections in the catalog

The claimed invariant (duplicate versions collapse) does not hold: insertion
appends to a plain array, so the version list of each canonical key carries
one entry per matching inserted descriptor, in order, duplicates included.
-/

theorem lowerCaseEq_refl (a : String) : lowerCaseEq a a = true := by
  simp [lowerCaseEq]

theorem lowerCaseEq_symm (a b : String) : lowerCaseEq a b = lowerCaseEq b a := by
  by_cases h : strLower a = strLower b
  · simp [lowerCaseEq, h]
  · have h' : strLower b ≠ strLower a := fun e => h e.symm
    simp [lowerCaseEq, h, h']

theorem lowerCaseEq_trans {a b c : String} (h1 : lowerCaseEq a b = true)
    (h2 : lowerCaseEq b c = true) : lowerCaseEq a c = true := by
  simp [lowerCaseEq] at h1 h2 ⊢
  exact h1.trans h2

theorem pushVersion_keys : ∀ (C : Catalog) (key v : String),
    (pushVersion C key v).map (·.1) = C.map (·.1) := by
  intro C
  induction C with
  | nil => intro key v; rfl
  | cons kv rest ih =>
    intro key v
    by_cases h : kv.1 = key
    · simp [pushVersion, h]
    · simp [pushVersion, h, ih]

theorem catLookup_push_self : ∀ (C : Catalog) (key v : String),
    catLookup (pushVersion C key v) key = (catLookup C key).map (· ++ [v]) := by
  intro C
  induction C with
  | nil => intro key v; rfl
  | cons kv rest ih =>
    intro key v
    by_cases h : kv.1 = key
    · simp [pushVersion, h, catLookup, List.find?_cons_of_pos]
    · have hbeq : (kv.1 == key) = false := by simp [h]
      simp only [pushVersion, if_neg h]
      rw [catLookup, List.find?_cons_of_neg _ (by simp [h]),
          catLookup, List.find?_cons_of_neg _ (by simp [h])] at *
      exact ih key v

theorem catLookup_push_other : ∀ (C : Catalog) (key v k : String), k ≠ key →
    catLookup (pushVersion C key v) k = catLookup C k := by
  intro C
  induction C with
  | nil => intro key v k _; rfl
  | cons kv rest ih =>
    intro key v k hk
    by_cases h : kv.1 = key
    · have hne : kv.1 ≠ k := by rw [h]; exact fun e => hk e.symm
      simp only [pushVersion, if_pos h]
      rw [catLookup, List.find?_cons_of_neg _ (by simp [hne]),
          catLookup, List.find?_cons_of_neg _ (by simp [hne])]
    · simp only [pushVersion, if_neg h]
      by_cases hkv : kv.1 = k
      · rw [catLookup, List.find?_cons_of_pos _ (by simp [hkv]),
            catLookup, List.find?_cons_of_pos _ (by simp [hkv])]
      · rw [catLookup, List.find?_cons_of_neg _ (by simp [hkv]),
            catLookup, List.find?_cons_of_neg _ (by simp [hkv])]
        exact ih key v k hk

theorem catLookup_none_iff (C : Catalog) (k : String) :
    catLookup C k = none ↔ ∀ kv ∈ C, kv.1 ≠ k := by
  rw [catLookup, Option.map_eq_none', List.find?_eq_none]
  simp

theorem catLookup_append_of_none (C D : Catalog) (k : String)
    (h : catLookup C k = none) : catLookup (C ++ D) k = catLookup D k := by
  have hfC : C.find? (fun kv => kv.1 == k) = none := by
    rw [catLookup, Option.map_eq_none'] at h; exact h
  rw [catLookup, List.find?_append, hfC]
  rfl

theorem catLookup_append_of_some (C D : Catalog) (k : String) (vs : List String)
    (h : catLookup C k = some vs) : catLookup (C ++ D) k = some vs := by
  rcases hf : C.find? (fun kv => kv.1 == k) with _ | kv
  · rw [catLookup, hf] at h
    exact absurd h (by simp)
  · rw [catLookup, List.find?_append, hf]
    rw [catLookup, hf] at h
    exact h

theorem pushVersion_append_fresh : ∀ (C : Catalog) (key : String)
    (l : List String) (v : String), (∀ kv ∈ C, kv.1 ≠ key) →
    pushVersion (C ++ [(key, l)]) key v = C ++ [(key, l ++ [v])] := by
  intro C
  induction C with
  | nil => intro key l v _; simp [pushVersion]
  | cons kv rest ih =>
    intro key l v h
    have hkv : kv.1 ≠ key := h kv (by simp)
    rw [List.cons_append, pushVersion.eq_def]
    simp only [if_neg hkv]
    rw [List.cons_append]
    congr 1
    exact ih key l v fun x hx => h x (by simp [hx])

theorem keysDistinct_nodup {C : Catalog} (h : catalogKeysDistinct C) :
    (C.map (·.1)).Nodup := by
  refine List.pairwise_map.mpr (h.imp ?_)
  intro a b hab he
  rw [he, lowerCaseEq_refl] at hab
  cases hab

theorem keysDistinct_unique {C : Catalog} (h : catalogKeysDistinct C)
    {a b : String × List String} (ha : a ∈ C) (hb : b ∈ C)
    (hab : lowerCaseEq a.1 b.1 = true) : a = b := by
  by_contra hne
  have hsym : Symmetric fun x y : String × List String =>
      lowerCaseEq x.1 y.1 = false := by
    intro x y hxy
    rw [lowerCaseEq_symm]
    exact hxy
  have := List.Pairwise.forall hsym h ha hb hne
  rw [this] at hab
  cases hab

theorem keysDistinct_push {C : Catalog} (key v : String)
    (h : catalogKeysDistinct C) : catalogKeysDistinct (pushVersion C key v) := by
  rw [catalogKeysDistinct] at h ⊢
  have hmap : ((C.map (·.1)).Pairwise fun a b => lowerCaseEq a b = false) :=
    List.pairwise_map.mpr h
  rw [← pushVersion_keys C key v] at hmap
  exact List.pairwise_map.mp hmap

theorem catLookup_of_mem : ∀ (C : Catalog), (C.map (·.1)).Nodup →
    ∀ (k : String) (vs : List String), (k, vs) ∈ C → catLookup C k = some vs := by
  intro C
  induction C with
  | nil => intro _ k vs h; cases h
  | cons kv rest ih =>
    intro hnd k vs hmem
    obtain ⟨k1, vs1⟩ := kv
    simp only [List.map_cons, List.nodup_cons] at hnd
    rcases List.mem_cons.mp hmem with heq | hmem'
    · obtain ⟨rfl, rfl⟩ : k = k1 ∧ vs = vs1 := by
        cases heq; exact ⟨rfl, rfl⟩
      rw [catLookup, List.find?_cons_of_pos _ (by simp)]
      rfl
    · have hk1 : k1 ≠ k := by
        intro he
        subst he
        exact hnd.1 (List.mem_map.mpr ⟨(k1, vs), hmem', rfl⟩)
      rw [catLookup, List.find?_cons_of_neg _ (by simp [hk1])]
      exact ih hnd.2 k vs hmem'

theorem mem_of_catLookup : ∀ (C : Catalog) (k : String) (vs : List String),
    catLookup C k = some vs → (k, vs) ∈ C := by
  intro C
  induction C with
  | nil => intro k vs h; cases h
  | cons kv rest ih =>
    intro k vs h
    by_cases hbeq : kv.1 = k
    · rw [catLookup, List.find?_cons_of_pos _ (by simp [hbeq])] at h
      have hv : kv.2 = vs := by simpa using h
      have hkv : kv = (k, vs) := by
        obtain ⟨k1, vs1⟩ := kv
        simp only at hbeq hv
        rw [hbeq, hv]
      rw [← hkv]
      exact List.mem_cons_self kv rest
    · rw [catLookup, List.find?_cons_of_neg _ (by simp [hbeq])] at h
      exact List.mem_cons_of_mem kv (ih k vs h)

theorem keysDistinct_insert {C : Catalog} (d : String × String)
    (h : catalogKeysDistinct C) : catalogKeysDistinct (insertResource C d) := by
  rcases hf : C.find? (fun kv => lowerCaseEq kv.1 d.1) with _ | kv
  · have hins : insertResource C d = pushVersion (C ++ [(d.1, [])]) d.1 d.2 := by
      rw [insertResource, hf]
    have hfresh : ∀ kv ∈ C, lowerCaseEq kv.1 d.1 = false := by
      intro kv hkv
      have h2 := List.find?_eq_none.mp hf kv hkv
      exact Bool.eq_false_iff.mpr h2
    have hne : ∀ kv ∈ C, kv.1 ≠ d.1 := by
      intro kv hkv he
      have hfr := hfresh kv hkv
      rw [he, lowerCaseEq_refl] at hfr
      cases hfr
    rw [hins, pushVersion_append_fresh C d.1 [] d.2 hne]
    rw [catalogKeysDistinct, List.pairwise_append]
    refine ⟨h, by simp, ?_⟩
    intro a ha b hb
    simp only [List.mem_singleton] at hb
    subst hb
    exact hfresh a ha
  · have hins : insertResource C d = pushVersion C kv.1 d.2 := by
      rw [insertResource, hf]
    rw [hins]
    exact keysDistinct_push kv.1 d.2 h

theorem buildCatalog_versions_aux :
    ∀ (ds : List (String × String)) (C : Catalog), catalogKeysDistinct C →
    ∀ (k : String) (vs : List String), (k, vs) ∈ List.foldl insertResource C ds →
    (∀ vs0, catLookup C k = some vs0 →
        vs = vs0 ++ (ds.filter fun r => lowerCaseEq r.1 k).map (·.2))
    ∧ (catLookup C k = none →
        (∀ kv ∈ C, lowerCaseEq kv.1 k = false)
        ∧ vs = (ds.filter fun r => lowerCaseEq r.1 k).map (·.2)) := by
  intro ds
  induction ds with
  | nil =>
    intro C hC k vs hmem
    simp only [List.foldl_nil] at hmem
    have hlook := catLookup_of_mem C (keysDistinct_nodup hC) k vs hmem
    constructor
    · intro vs0 h0
      rw [hlook] at h0
      obtain rfl : vs = vs0 := by simpa using h0
      simp
    · intro h0
      rw [hlook] at h0
      cases h0
  | cons d ds' ih =>
    intro C hC k vs hmem
    rw [List.foldl_cons] at hmem
    have hC' : catalogKeysDistinct (insertResource C d) := keysDistinct_insert d hC
    have IH := ih (insertResource C d) hC' k vs hmem
    by_cases hd : lowerCaseEq d.1 k = true
    · rcases hf : C.find? (fun kv => lowerCaseEq kv.1 d.1) with _ | kv
      · -- key matches the descriptor, no existing case-insensitive key
        have hins : insertResource C d = pushVersion (C ++ [(d.1, [])]) d.1 d.2 := by
          rw [insertResource, hf]
        have hfresh : ∀ kv ∈ C, lowerCaseEq kv.1 d.1 = false := by
          intro kv hkv
          exact Bool.eq_false_iff.mpr (List.find?_eq_none.mp hf kv hkv)
        have hne : ∀ kv ∈ C, kv.1 ≠ d.1 := by
          intro kv hkv he
          have hfr := hfresh kv hkv
          rw [he, lowerCaseEq_refl] at hfr
          cases hfr
        have hins2 : insertResource C d = C ++ [(d.1, [d.2])] := by
          rw [hins, pushVersion_append_fresh C d.1 [] d.2 hne]
          rfl
        constructor
        · intro vs0 h0
          exfalso
          have hmem0 := mem_of_catLookup C k vs0 h0
          have hfr := hfresh (k, vs0) hmem0
          have hsymm : lowerCaseEq k d.1 = true := by
            rw [lowerCaseEq_symm]; exact hd
          rw [hfr] at hsymm
          cases hsymm
        · intro h0
          by_cases hkd : k = d.1
          · have hlook : catLookup (insertResource C d) k = some [d.2] := by
              rw [hins2, catLookup_append_of_none C _ k h0, hkd]
              rw [catLookup, List.find?_cons_of_pos _ (by simp)]
              rfl
            have hvs := IH.1 [d.2] hlook
            constructor
            · intro kv hkv
              have := hfresh kv hkv
              rwa [← hkd] at this
            · simpa [List.filter_cons, hd] using hvs
          · exfalso
            have hlook : catLookup (insertResource C d) k = none := by
              rw [hins2, catLookup_append_of_none C _ k h0]
              rw [catLookup,
                  List.find?_cons_of_neg _ (by simp; intro e; exact hkd e.symm)]
              rfl
            have hall := (IH.2 hlook).1
            have hmem1 : (d.1, [d.2]) ∈ insertResource C d := by
              rw [hins2]; simp
            have hcontra := hall (d.1, [d.2]) hmem1
            rw [hcontra] at hd
            cases hd
      · -- key matches the descriptor, existing case-insensitive key kv
        have hins : insertResource C d = pushVersion C kv.1 d.2 := by
          rw [insertResource, hf]
        have hkv_mem : kv ∈ C := List.mem_of_find?_eq_some hf
        have hkv_match : lowerCaseEq kv.1 d.1 = true := by
          have := List.find?_some hf
          simpa using this
        have hkvk : lowerCaseEq kv.1 k = true := lowerCaseEq_trans hkv_match hd
        constructor
        · intro vs0 h0
          have hmem0 := mem_of_catLookup C k vs0 h0
          have hkveq : kv = (k, vs0) := keysDistinct_unique hC hkv_mem hmem0 hkvk
          have hlook : catLookup (insertResource C d) k = some (vs0 ++ [d.2]) := by
            rw [hins, hkveq]
            show catLookup (pushVersion C k d.2) k = _
            rw [catLookup_push_self, h0]
            rfl
          have hvs := IH.1 (vs0 ++ [d.2]) hlook
          rw [hvs]
          simp [List.filter_cons, hd, List.append_assoc]
        · intro h0
          exfalso
          have hkvne : kv.1 ≠ k := by
            intro he
            obtain ⟨k1, vs1⟩ := kv
            simp only at he
            subst he
            have := catLookup_of_mem C (keysDistinct_nodup hC) k1 vs1 hkv_mem
            rw [h0] at this
            cases this
          have hlook : catLookup (insertResource C d) k = none := by
            rw [hins, catLookup_push_other C kv.1 d.2 k (Ne.symm hkvne)]
            exact h0
          have hall := (IH.2 hlook).1
          have hkey : kv.1 ∈ (insertResource C d).map (·.1) := by
            rw [hins, pushVersion_keys]
            exact List.mem_map.mpr ⟨kv, hkv_mem, rfl⟩
          obtain ⟨entry, hentry, hekey⟩ := List.mem_map.mp hkey
          have hfalse := hall entry hentry
          rw [hekey] at hfalse
          rw [hfalse] at hkvk
          cases hkvk
    · rcases hf : C.find? (fun kv => lowerCaseEq kv.1 d.1) with _ | kv
      · -- descriptor does not match k, fresh key d.1 appended
        have hins : insertResource C d = pushVersion (C ++ [(d.1, [])]) d.1 d.2 := by
          rw [insertResource, hf]
        have hfresh : ∀ kv ∈ C, lowerCaseEq kv.1 d.1 = false := by
          intro kv hkv
          exact Bool.eq_false_iff.mpr (List.find?_eq_none.mp hf kv hkv)
        have hne : ∀ kv ∈ C, kv.1 ≠ d.1 := by
          intro kv hkv he
          have hfr := hfresh kv hkv
          rw [he, lowerCaseEq_refl] at hfr
          cases hfr
        have hins2 : insertResource C d = C ++ [(d.1, [d.2])] := by
          rw [hins, pushVersion_append_fresh C d.1 [] d.2 hne]
          rfl
        have hkd : ¬(d.1 = k) := by
          intro he
          rw [he, lowerCaseEq_refl] at hd
          exact hd rfl
        constructor
        · intro vs0 h0
          have hlook : catLookup (insertResource C d) k = some vs0 := by
            rw [hins2]
            exact catLookup_append_of_some C _ k vs0 h0
          have hvs := IH.1 vs0 hlook
          rw [hvs]
          simp [List.filter_cons, hd]
        · intro h0
          have hlook : catLookup (insertResource C d) k = none := by
            rw [hins2, catLookup_append_of_none C _ k h0]
            rw [catLookup, List.find?_cons_of_neg _ (by simp [hkd])]
            rfl
          obtain ⟨hall, hvs⟩ := IH.2 hlook
          constructor
          · intro kv hkv
            exact hall kv (by rw [hins2]; exact List.mem_append_left _ hkv)
          · rw [hvs]
            simp [List.filter_cons, hd]
      · -- descriptor does not match k, merged into existing key kv
        have hins : insertResource C d = pushVersion C kv.1 d.2 := by
          rw [insertResource, hf]
        have hkv_mem : kv ∈ C := List.mem_of_find?_eq_some hf
        have hkv_match : lowerCaseEq kv.1 d.1 = true := by
          have := List.find?_some hf
          simpa using this
        have hkvne : kv.1 ≠ k := by
          intro he
          rw [he] at hkv_match
          have : lowerCaseEq d.1 k = true := by
            rw [lowerCaseEq_symm]; exact hkv_match
          exact hd this
        have hlookeq : catLookup (insertResource C d) k = catLookup C k := by
          rw [hins]
          exact catLookup_push_other C kv.1 d.2 k (Ne.symm hkvne)
        constructor
        · intro vs0 h0
          have hvs := IH.1 vs0 (by rw [hlookeq]; exact h0)
          rw [hvs]
          simp [List.filter_cons, hd]
        · intro h0
          obtain ⟨hall, hvs⟩ := IH.2 (by rw [hlookeq]; exact h0)
          constructor
          · intro kv0 hkv0
            have hkey : kv0.1 ∈ (insertResource C d).map (·.1) := by
              rw [hins, pushVersion_keys]
              exact List.mem_map.mpr ⟨kv0, hkv0, rfl⟩
            obtain ⟨entry, hentry, hekey⟩ := List.mem_map.mp hkey
            have := hall entry hentry
            rwa [hekey] at this
          · rw [hvs]
            simp [List.filter_cons, hd]

/-- C6 counterexample: inserting the same (type, apiVersion) descriptor
twice (up to type casing) leaves a duplicated entry in the version list —
duplicates do NOT collapse, because insertion is an array push. -/
theorem catalog_duplicate_versions_counterexample :
    buildCatalog [("Foo/Bar", "2020-06-01"), ("foo/bar", "2020-06-01")]
      = [("Foo/Bar", ["2020-06-01", "2020-06-01"])]
    ∧ ¬ (["2020-06-01", "2020-06-01"] : List String).Nodup :=
  ⟨rfl, by decide⟩

/-- C6 as amended: for every insertion sequence, each canonical key's
version collection holds exactly one entry per inserted descriptor whose
type matches the key case-insensitively, in insertion order — duplicates
are preserved, not collapsed. -/
theorem catalog_versions_inventory (ds : List (String × String)) (k : String)
    (vs : List String) (h : (k, vs) ∈ buildCatalog ds) :
    vs = (ds.filter fun r => lowerCaseEq r.1 k).map (·.2) := by
  have haux := buildCatalog_versions_aux ds [] List.Pairwise.nil k vs h
  exact (haux.2 rfl).2

/-- Witness for C6 (amended): the duplicated catalog entry equals the
filtered-and-projected insertion sequence. -/
theorem catalog_versions_inventory_witness :
    (("Foo/Bar", ["2020-06-01", "2020-06-01"])
        ∈ buildCatalog [("Foo/Bar", "2020-06-01"), ("foo/bar", "2020-06-01")])
    ∧ ["2020-06-01", "2020-06-01"]
        = (([("Foo/Bar", "2020-06-01"), ("foo/bar", "2020-06-01")].filter
              fun r => lowerCaseEq r.1 "Foo/Bar").map (·.2)) := by
  have hmem : ("Foo/Bar", ["2020-06-01", "2020-06-01"])
      ∈ buildCatalog [("Foo/Bar", "2020-06-01"), ("foo/bar", "2020-06-01")] := by
    rw [show buildCatalog [("Foo/Bar", "2020-06-01"), ("foo/bar", "2020-06-01")]
          = [("Foo/Bar", ["2020-06-01", "2020-06-01"])] from rfl]
    exact List.mem_singleton.mpr rfl
  exact ⟨hmem, catalog_versions_inventory _ "Foo/Bar" _ hmem⟩

end ArmSchemas
